import Mathlib

/-!
Verification of the sella minimum-mode saddle-point search core
(`sella/linalg.py` and `sella/sella_old.py`) against its natural-language
specification.  The Python source is shallowly embedded below: pure
numerical routines become Lean functions over `ℚ` (exact rationals stand
in for the source's floating-point data wherever no irrational constant
is involved) or over `ℝ` (where `np.pi`, `np.linalg.norm` or
`np.sqrt` appear); stateful methods become explicit state-passing
functions; code that can raise a Python exception returns `Option`, with
`none` modelling the raised exception.  External collaborators that are
not part of this repository (the potential evaluator, `update_H`,
`scipy.linalg.eigh`, the ASE calculator) are parameters of the embedded
functions.
-/

open Matrix

/-- Column vectors of rationals, indexed by `Fin n`. -/
abbrev Vec (n : ℕ) := Fin n → ℚ

/-- Square rational matrices. -/
abbrev Mat (n : ℕ) := Matrix (Fin n) (Fin n) ℚ

/-! ### `MatrixWrapper` (linalg.py lines 7-36)

A `MatrixWrapper` is backed by one concrete dense matrix `A`
(`self.A = A`; the `shape`/`dtype` bookkeeping is carried by the Lean
types).  Scalars are modelled as `ℚ` (real data), so the complex
conjugation in `_adjoint` (`self.A.conj().T`) is the identity and the
adjoint is the transpose. -/
structure MatrixWrapper (m n : ℕ) where
  A : Matrix (Fin m) (Fin n) ℚ
deriving DecidableEq

/-- `MatrixSum` (linalg.py lines 97-151): the lazy sum `Σ` of several
operators, stored as the list `self.matrices`.  Each summand is modelled
by the matrix it represents.  (The constructor's eager folding of dense
`np.ndarray` summands into a single accumulator only reorganises this
internal list; the claims under verification do not depend on it and it
is not modelled.) -/
structure MatrixSum (m n : ℕ) where
  matrices : List (Matrix (Fin m) (Fin n) ℚ)
deriving DecidableEq

/-- An argument passed to `MatrixSum.__init__`: either a single operator
or another `MatrixSum` (whose summand list is spliced in, line 101-104). -/
inductive SumArg (m n : ℕ) where
  | mat : Matrix (Fin m) (Fin n) ℚ → SumArg m n
  | sum : MatrixSum m n → SumArg m n

/-- `MatrixSum.__init__` (lines 98-121): flattens nested sums in
argument order.  The constructor checks shapes and dtypes only; it never
inspects the summands' symmetry. -/
def MatrixSum.make {m n : ℕ} (args : List (SumArg m n)) : MatrixSum m n :=
  ⟨args.foldr
    (fun a acc =>
      (match a with
       | .sum S => S.matrices
       | .mat M => [M]) ++ acc) []⟩

/-- `MatrixSum._matvec` (lines 123-127): `w = zeros; for matrix in
self.matrices: w += matrix.dot(v)`. -/
def MatrixSum.matvec {m n : ℕ} (S : MatrixSum m n) (v : Fin n → ℚ) : Fin m → ℚ :=
  S.matrices.foldl (fun w M => w + M.mulVec v) 0

/-- `MatrixSum._adjoint` (lines 143-144): `return self`. -/
def MatrixSum.adjointOp {m n : ℕ} (S : MatrixSum m n) : MatrixSum m n := S

/-- `MatrixSum._transpose` (lines 146-147): `return self`. -/
def MatrixSum.transposeOp {m n : ℕ} (S : MatrixSum m n) : MatrixSum m n := S

/-- The operand of `MatrixWrapper._matmat` / `_rmatmat`: either a dense
matrix or a `MatrixSum` (the case the source rejects). -/
inductive MatArg (m n : ℕ) where
  | dense : Matrix (Fin m) (Fin n) ℚ → MatArg m n
  | sum : MatrixSum m n → MatArg m n

/-- `MatrixWrapper._matvec` (lines 13-14): `self.A.dot(v)`. -/
def MatrixWrapper.matvec {m n : ℕ} (W : MatrixWrapper m n) (v : Fin n → ℚ) : Fin m → ℚ :=
  W.A.mulVec v

/-- `MatrixWrapper._rmatvec` (lines 16-17): `v.dot(self.A)` (a row
vector multiplied from the left). -/
def MatrixWrapper.rmatvec {m n : ℕ} (W : MatrixWrapper m n) (v : Fin m → ℚ) : Fin n → ℚ :=
  Matrix.vecMul v W.A

/-- `MatrixWrapper._matmat` (lines 22-25): raises `ValueError` when the
right operand is a `MatrixSum` (modelled as `none`); otherwise wraps the
dense product `self.A.dot(other)`. -/
def MatrixWrapper.matmat {m n k : ℕ} (W : MatrixWrapper m n) (other : MatArg n k) :
    Option (MatrixWrapper m k) :=
  match other with
  | .sum _ => none
  | .dense B => some ⟨W.A * B⟩

/-- `MatrixWrapper._rmatmat` (lines 27-30): raises `ValueError` when the
operand is a `MatrixSum`; otherwise wraps `other.dot(self.A)`. -/
def MatrixWrapper.rmatmat {m n k : ℕ} (W : MatrixWrapper m n) (other : MatArg k m) :
    Option (MatrixWrapper k n) :=
  match other with
  | .sum _ => none
  | .dense B => some ⟨B * W.A⟩

/-- `MatrixWrapper._adjoint` (lines 35-36): `MatrixWrapper(self.A.conj().T)`;
over real (here rational) scalars the conjugate transpose is `Aᵀ`. -/
def MatrixWrapper.adjointOp {m n : ℕ} (W : MatrixWrapper m n) : MatrixWrapper n m :=
  ⟨W.Aᵀ⟩

/-- `MatrixWrapper._transpose` (lines 32-33): the source returns
`MatrixWrapper(self.A.transpose)` — the *uncalled* `transpose` method
object, not `self.A.transpose()`.  `MatrixWrapper.__init__` then reads
`A.shape` on that method object, which raises `AttributeError`.  Every
call therefore fails; modelled as `none`. -/
def MatrixWrapper.transposeOp {m n : ℕ} (_W : MatrixWrapper m n) :
    Option (MatrixWrapper n m) :=
  none

/-! ### `ProjectedMatrix` (linalg.py lines 78-94) -/

/-- `ProjectedMatrix`: the wrapped full operator `A` (modelled by the
map `v ↦ A.dot(v)`), the projection basis `Tm`, and the append-only
probe histories `Vs` and `AVs`, stored as lists of columns. -/
structure ProjectedMatrix (dtrue dproj : ℕ) where
  A : (Fin dtrue → ℚ) → (Fin dtrue → ℚ)
  Tm : Matrix (Fin dtrue) (Fin dproj) ℚ
  Vs : List (Fin dtrue → ℚ)
  AVs : List (Fin dtrue → ℚ)

/-- `ProjectedMatrix.__init__` (lines 79-87): copies `Tm` and starts
with empty histories. -/
def ProjectedMatrix.make {dtrue dproj : ℕ} (A : (Fin dtrue → ℚ) → Fin dtrue → ℚ)
    (Tm : Matrix (Fin dtrue) (Fin dproj) ℚ) : ProjectedMatrix dtrue dproj :=
  ⟨A, Tm, [], []⟩

/-- `ProjectedMatrix.dot` (lines 89-94): lifts the reduced vector via
`Tm`, appends the probe to `Vs`, applies `A`, appends the image to
`AVs`, and returns `Tm.T @ w`. -/
def ProjectedMatrix.dot {dtrue dproj : ℕ} (P : ProjectedMatrix dtrue dproj)
    (vm : Fin dproj → ℚ) : (Fin dproj → ℚ) × ProjectedMatrix dtrue dproj :=
  let v := P.Tm.mulVec vm
  let P1 : ProjectedMatrix dtrue dproj :=
    { P with Vs := P.Vs ++ [v] }
  let w := P.A v
  let P2 : ProjectedMatrix dtrue dproj :=
    { P1 with AVs := P1.AVs ++ [w] }
  (P.Tmᵀ.mulVec w, P2)

/-- Iterating `ProjectedMatrix.dot` over a list of reduced inputs,
keeping only the state (the history accumulation of a whole probe
sequence). -/
def ProjectedMatrix.applySeq {dtrue dproj : ℕ} (P : ProjectedMatrix dtrue dproj)
    (vs : List (Fin dproj → ℚ)) : ProjectedMatrix dtrue dproj :=
  vs.foldl (fun Q u => (Q.dot u).2) P

/-! ### `NumericalHessian` (linalg.py lines 39-75)

The finite-difference Hessian probe.  `np.linalg.norm` and the probe
points are real-valued, so this part of the embedding lives over `ℝ`.
`self.func` is the (externally supplied, in general stateful) gradient
evaluator; it is modelled as a state-passing function over an abstract
external-world state `σ`, so that the number of potential evaluations a
call performs is observable. -/
structure NumericalHessian (n : ℕ) (σ : Type) where
  func : σ → (Fin n → ℝ) → (ℝ × (Fin n → ℝ)) × σ
  x0 : Fin n → ℝ
  g0 : Fin n → ℝ
  dxL : ℝ
  threepoint : Bool
  calls : ℕ

/-- `NumericalHessian._matvec` (lines 53-60): increments `self.calls`
by one, evaluates the gradient at `x0 + dxL·v/‖v‖` and, in three-point
mode, also at `x0 − dxL·v/‖v‖`, and returns the scaled gradient
difference.  Returns the result vector, the updated operator, and the
external-world state after the evaluations. -/
noncomputable def NumericalHessian.matvec {n : ℕ} {σ : Type}
    (op : NumericalHessian n σ) (w : σ) (v : Fin n → ℝ) :
    (Fin n → ℝ) × NumericalHessian n σ × σ :=
  let op1 : NumericalHessian n σ := { op with calls := op.calls + 1 }
  let vnorm : ℝ := Real.sqrt (∑ i, v i ^ 2)
  let rplus := op.func w (fun i => op.x0 i + op.dxL * v i / vnorm)
  let gplus := rplus.1.2
  let w1 := rplus.2
  if op.threepoint then
    let rminus := op.func w1 (fun i => op.x0 i - op.dxL * v i / vnorm)
    let gminus := rminus.1.2
    let w2 := rminus.2
    ((fun i => vnorm * (gplus i - gminus i) / (2 * op.dxL)), op1, w2)
  else
    ((fun i => vnorm * ((gplus i - op.g0 i) / op.dxL)), op1, w1)

/-- A potential evaluator that wraps a pure gradient function `f0` and
counts its own invocations in the external-world state. -/
def countFunc {n : ℕ} (f0 : (Fin n → ℝ) → ℝ × (Fin n → ℝ)) :
    ℕ → (Fin n → ℝ) → (ℝ × (Fin n → ℝ)) × ℕ :=
  fun s x => (f0 x, s + 1)

/-! ### The generic `MinMode` controller (sella_old.py lines 22-128)

Only the state touched by `f_update` / `f_dimer` is modelled (the
remaining constructor fields — `shift`, `shift_factor`, `v0`, `d`,
`minmode`, `constraints` — are read only by `f_minmode`, which is not
embedded here).  Fields that are `None` until first assignment are
`Option`s. -/
structure MinModeState (n : ℕ) where
  H : Option (Mat n)
  flast : Option ℚ
  xlast2 : Option (Vec n)
  xlast : Option (Vec n)
  glast : Option (Vec n)
  calls : ℕ
  df : Option ℚ
  df_pred : Option ℚ
  ratio : Option ℚ
  lams : Option (Vec n)
  vecs : Option (Mat n)
deriving DecidableEq

/-- `MinMode.f_update` (sella_old.py lines 60-81).

* `pot` is the external potential `self.f`, threaded through an
  abstract external-world state `σ` (so that "performs a potential
  call" is observable); `updH` is the external quasi-Newton updater
  `update_H` (which receives `self.H`, possibly `None`); `eig` is the
  external `scipy.linalg.eigh`.
* If `x` equals the cached position exactly, the cached
  `(self.flast, self.glast)` pair is returned and nothing changes.
* Otherwise the counter is incremented and the potential evaluated.
  When `self.flast` is set, the source then reads `self.xlast`,
  `self.glast` and `self.H` to form `df_pred` and `ratio`; if any of
  those is still `None`, the Python expression raises `TypeError`,
  modelled as `none`.  (Rational division by `df = 0` is modelled by
  `ℚ`'s total division; the source produces an IEEE `inf`/`nan` there.)
* The quasi-Newton update runs whenever `xlast` and `glast` are set. -/
def f_update {n : ℕ} {σ : Type} (pot : σ → Vec n → (ℚ × Vec n) × σ)
    (updH : Option (Mat n) → Vec n → Vec n → Mat n)
    (eig : Mat n → Vec n × Mat n) (w : σ) (s : MinModeState n) (x : Vec n) :
    Option ((Option ℚ × Option (Vec n)) × MinModeState n × σ) :=
  if s.xlast = some x then
    some ((s.flast, s.glast), s, w)
  else
    let fg := pot w x
    let f := fg.1.1
    let g := fg.1.2
    let w1 := fg.2
    match s.flast, s.xlast, s.glast, s.H with
    | some fl, some xl, some gl, some Hm =>
      let dx := x - xl
      let dfv := f - fl
      let dfp := (gl ⬝ᵥ dx) + (dx ⬝ᵥ (Hm.mulVec dx)) / 2
      let H1 := updH (some Hm) (x - xl) (g - gl)
      let ev := eig H1
      some ((some f, some g),
        { H := some H1
          flast := some f
          xlast2 := s.xlast
          xlast := some x
          glast := some g
          calls := s.calls + 1
          df := some dfv
          df_pred := some dfp
          ratio := some (dfp / dfv)
          lams := some ev.1
          vecs := some ev.2 }, w1)
    | some _, _, _, _ => none
    | none, some xl, some gl, _ =>
      let H1 := updH s.H (x - xl) (g - gl)
      let ev := eig H1
      some ((some f, some g),
        { s with
          H := some H1
          flast := some f
          xlast2 := s.xlast
          xlast := some x
          glast := some g
          calls := s.calls + 1
          lams := some ev.1
          vecs := some ev.2 }, w1)
    | none, _, _, _ =>
      some ((some f, some g),
        { s with
          flast := some f
          xlast2 := s.xlast
          xlast := some x
          glast := some g
          calls := s.calls + 1 }, w1)

/-! ### `MinMode.f_dimer` (sella_old.py lines 115-120) -/

/-- Python `len` applied to a `MinMode` controller object.  The class
defines no `__len__`, so `len(controller)` raises `TypeError`; the
raised exception is modelled as `none`. -/
def pyLenMinMode {n : ℕ} (_s : MinModeState n) : Option ℕ := none

/-- `MinMode.f_dimer` (lines 115-120).  Line 116 reads
`f, g = self.f_minmode(self, x0, *args, **kwargs)`: because
`self.f_minmode` is already bound, the controller itself is passed as
the `x0` parameter of `f_minmode` and the real anchor lands in `dxL`.
`f_minmode` (line 84) immediately evaluates `len(x0)`, i.e.
`len(self)`, which raises `TypeError` (`pyLenMinMode`).  Every call
therefore fails before the gradient decomposition in lines 117-120 is
reached; the continuation of the bind is that unreachable remainder. -/
def f_dimer {n : ℕ} (s : MinModeState n) (_x0 : Vec n) :
    Option ((ℚ × Vec n) × MinModeState n) :=
  (pyLenMinMode s).bind fun _ => none

/-- The gradient decomposition of `f_dimer` (lines 117-120), as it
would execute after a successful search-mode call with eigenvalues
`lams` and eigenvectors `vecs`: `gpar = vecs[:,0] * (vecs[:,0] @ g)`;
return `-gpar` when `lams[0] > 0`, else `g - 2*gpar`.  In the source
this code is unreachable (see `f_dimer`). -/
def dimerCombine {n : ℕ} (lams : Fin (n + 1) → ℚ)
    (vecs : Matrix (Fin (n + 1)) (Fin (n + 1)) ℚ) (f : ℚ) (g : Fin (n + 1) → ℚ) :
    ℚ × (Fin (n + 1) → ℚ) :=
  let v := fun i => vecs i 0
  let gpar := fun i => v i * (v ⬝ᵥ g)
  if 0 < lams 0 then (f, fun i => -gpar i) else (f, fun i => g i - 2 * gpar i)

/-! ### `MinModeAtoms.eval_eg` (sella_old.py lines 255-296)

Atomic positions are rows of three rationals.  The external ASE
calculator attached to the `Atoms` object is the parameter `calc`,
returning the energy and the per-atom forces for given full positions
(the source negates the forces: `f = -self.atoms.get_forces()`). -/
abbrev V3 := ℚ × ℚ × ℚ

/-- Negation of one force row. -/
def vneg (a : V3) : V3 := (-a.1, -a.2.1, -a.2.2)

/-- `g.ravel()`: flatten a list of coordinate rows. -/
def ravel : List V3 → List ℚ
  | [] => []
  | a :: rest => a.1 :: a.2.1 :: a.2.2 :: ravel rest

/-- The scatter loop of `eval_eg` (lines 259-273): builds the full
position list row by row; row `i` is the stored initial position for a
fixed atom and the next unconsumed row of the reduced input otherwise.
If the reduced input runs out while an unfixed row remains, the source
raises `IndexError`, modelled as `none`.  `i` is the absolute index of
the first row of `x0`. -/
def scatterPos (fix : List ℕ) : ℕ → List V3 → List V3 → Option (List V3)
  | _, [], _ => some []
  | i, r0 :: rest, xin =>
    if i ∈ fix then (scatterPos fix (i + 1) rest xin).map (r0 :: ·)
    else
      match xin with
      | [] => none
      | rx :: restx => (scatterPos fix (i + 1) rest restx).map (rx :: ·)

/-- The gather loop of `eval_eg` (lines 282-290): keeps the force rows
of unfixed atoms, in order. -/
def gatherGrad (fix : List ℕ) : ℕ → List V3 → List V3
  | _, [] => []
  | i, fi :: rest =>
    if i ∈ fix then gatherGrad fix (i + 1) rest
    else fi :: gatherGrad fix (i + 1) rest

/-- `MinModeAtoms.eval_eg` (lines 255-296): scatters the reduced input
into full positions (fixed atoms held at `self.x0`), calls the external
calculator, negates the forces, gathers the unfixed rows and flattens
them.  Returns the energy, the reduced flattened gradient, and the full
positions the `Atoms` object holds after the call (the effect of
`self.atoms.set_positions(pos)`); the trajectory sink is external and
not modelled. -/
def evalEg (calcEG : List V3 → ℚ × List V3) (fix : List ℕ) (x0full : List V3)
    (xin : List V3) : Option (ℚ × List ℚ × List V3) :=
  if fix = [] then
    let eF := calcEG xin
    some (eF.1, ravel (eF.2.map vneg), xin)
  else
    match scatterPos fix 0 x0full xin with
    | none => none
    | some pos =>
      let eF := calcEG pos
      some (eF.1, ravel (gatherGrad fix 0 (eF.2.map vneg)), pos)

/-! ### The dihedral residual wrap of `MinModeAtoms.res_constr`
(sella_old.py line 441) -/

/-- Python float `%`: `a % b = a - b*floor(a/b)` (for `b > 0` the
result lies in `[0, b)`). -/
noncomputable def pymod (a b : ℝ) : ℝ := a - b * ⌊a / b⌋

/-- Line 441 of `res_constr`, applied to one dihedral constraint:
`r[n] = (r[n] - dihedrals[indices] + np.pi) % (2*np.pi) - np.pi`, where
`r[n]` is the measured dihedral returned by the external
`cart_to_internal` and `dihedrals[indices]` is the target. -/
noncomputable def wrapDihedral (measured target : ℝ) : ℝ :=
  pymod (measured - target + Real.pi) (2 * Real.pi) - Real.pi

/-- The reduction described by the claim, following the specification
text: the deviation `d` reduced modulo `2π` into the half-open interval
`(−π, π]` (written here with a ceiling; this is the unique
representative of `d` modulo `2π` in that interval). -/
noncomputable def specDihedralWrap (d : ℝ) : ℝ :=
  d - 2 * Real.pi * ⌈(d - Real.pi) / (2 * Real.pi)⌉

/-! ### Concrete instances used in witnesses and counterexamples -/

/-- A concrete three-point probe operator over one coordinate whose
evaluator counts its own invocations in the external-world state. -/
noncomputable def numhessEx : NumericalHessian 1 ℕ :=
  { func := countFunc (fun _ => (0, fun _ => 0))
    x0 := fun _ => 0
    g0 := fun _ => 0
    dxL := 1
    threepoint := true
    calls := 0 }

/-- A one-dimensional potential for concrete runs: returns the first
coordinate as the energy and the position itself as the gradient, and
counts its invocations in the external-world state. -/
def potCount : ℕ → Vec 1 → (ℚ × Vec 1) × ℕ := fun w x => ((x 0, x), w + 1)

/-- A trivial stand-in for the external quasi-Newton updater. -/
def updConst : Option (Mat 1) → Vec 1 → Vec 1 → Mat 1 := fun _ _ _ => !![1]

/-- A trivial stand-in for the external eigendecomposition. -/
def eigTriv : Mat 1 → Vec 1 × Mat 1 := fun M => (fun _ => 0, M)

/-- A freshly constructed controller state (all caches empty). -/
def sFresh : MinModeState 1 :=
  { H := none
    flast := none
    xlast2 := none
    xlast := none
    glast := none
    calls := 0
    df := none
    df_pred := none
    ratio := none
    lams := none
    vecs := none }

/-- The controller state after one evaluation of `potCount` at `![3]`
starting from `sFresh`. -/
def sOnce : MinModeState 1 :=
  { H := none
    flast := some 3
    xlast2 := none
    xlast := some ![3]
    glast := some ![3]
    calls := 1
    df := none
    df_pred := none
    ratio := none
    lams := none
    vecs := none }

/-- A controller state with a full cache: value `0` at position `![0]`
with gradient `![1]` and quadratic model `H = [[2]]`. -/
def sCached : MinModeState 1 :=
  { H := some !![2]
    flast := some 0
    xlast2 := none
    xlast := some ![0]
    glast := some ![1]
    calls := 0
    df := none
    df_pred := none
    ratio := none
    lams := none
    vecs := none }

/-- The number of fixed indices among the `len` absolute indices
starting at `i`. -/
def countFixFrom (fix : List ℕ) : ℕ → ℕ → ℕ
  | _, 0 => 0
  | i, len + 1 => (if i ∈ fix then 1 else 0) + countFixFrom fix (i + 1) len

/-- A concrete two-atom calculator: energy `0`, forces equal to the
positions. -/
def calcEcho : List V3 → ℚ × List V3 := fun p => (0, p)

/-- Initial full positions of a two-atom system. -/
def x0Pair : List V3 := [(0, 0, 0), (1, 1, 1)]

/-- A reduced coordinate vector for the free atom. -/
def xinOne : List V3 := [(5, 5, 5)]

/-- The full positions produced with atom `0` fixed: the fixed atom at
its initial position, the free atom at the reduced input. -/
def posPair : List V3 := [(0, 0, 0), (5, 5, 5)]

/-- The reduced gradient of the step: minus the echoed force of the
free atom, flattened. -/
def gOne : List ℚ := [-5, -5, -5]

/-! ### Helper lemmas -/

lemma applySeq_cons {dt dp : ℕ} (P : ProjectedMatrix dt dp) (u : Fin dp → ℚ)
    (rest : List (Fin dp → ℚ)) :
    P.applySeq (u :: rest) = ((P.dot u).2).applySeq rest := rfl

lemma applySeq_history {dt dp : ℕ} :
    ∀ (vs : List (Fin dp → ℚ)) (P : ProjectedMatrix dt dp),
      (P.applySeq vs).Vs = P.Vs ++ vs.map (fun u => P.Tm.mulVec u)
      ∧ (P.applySeq vs).AVs = P.AVs ++ vs.map (fun u => P.A (P.Tm.mulVec u))
      ∧ (P.applySeq vs).A = P.A ∧ (P.applySeq vs).Tm = P.Tm := by
  intro vs
  induction vs with
  | nil =>
    intro P
    exact ⟨by simp [ProjectedMatrix.applySeq], by simp [ProjectedMatrix.applySeq],
      rfl, rfl⟩
  | cons u rest ih =>
    intro P
    obtain ⟨h1, h2, h3, h4⟩ := ih ((P.dot u).2)
    rw [applySeq_cons]
    refine ⟨?_, ?_, h3, h4⟩
    · rw [h1]
      show (P.Vs ++ [P.Tm.mulVec u]) ++ rest.map (fun w => P.Tm.mulVec w) = _
      simp
    · rw [h2]
      show (P.AVs ++ [P.A (P.Tm.mulVec u)])
          ++ rest.map (fun w => P.A (P.Tm.mulVec w)) = _
      simp

lemma msum_foldl_add {m n : ℕ} (v : Fin n → ℚ) :
    ∀ (l : List (Matrix (Fin m) (Fin n) ℚ)) (w0 : Fin m → ℚ),
      l.foldl (fun w M => w + M.mulVec v) w0
        = w0 + (l.map (fun M => M.mulVec v)).sum := by
  intro l
  induction l with
  | nil => intro w0; simp
  | cons M rest ih =>
    intro w0
    rw [List.foldl_cons, ih]
    simp [add_assoc]

lemma msum_matvec_sum {m n : ℕ} (S : MatrixSum m n) (v : Fin n → ℚ) :
    S.matvec v = (S.matrices.map (fun M => M.mulVec v)).sum := by
  rw [MatrixSum.matvec, msum_foldl_add]
  simp

lemma dot_list_sum {m : ℕ} (w : Fin m → ℚ) :
    ∀ l : List (Fin m → ℚ), w ⬝ᵥ l.sum = (l.map (fun x => w ⬝ᵥ x)).sum := by
  intro l
  induction l with
  | nil => simp
  | cons x rest ih => simp [dotProduct_add, ih]

/-! ### Claims about the linear-operator algebra -/

/-- C7: a dense matrix-matrix product whose right operand is a
`MatrixSum` is rejected with `ValueError` (modelled as `none`) by both
`MatrixWrapper._matmat` and `MatrixWrapper._rmatmat`, for every wrapper
and every sum of compatible shape. -/
theorem matmat_sum_invalid :
    ∀ (m n k : ℕ) (W : MatrixWrapper m n) (S : MatrixSum n k) (S2 : MatrixSum k m),
      W.matmat (MatArg.sum S) = none ∧ W.rmatmat (MatArg.sum S2) = none := by
  intro m n k W S S2
  exact ⟨rfl, rfl⟩

/-- C9: for every wrapped dense matrix, `matvec` computes `A·v`,
`rmatvec` computes `v·A` (equivalently `Aᵀ·v`), and `adjoint()` returns
an operator computing products with the conjugate transpose (over the
real scalars modelled here, `Aᵀ`), witnessed by the adjoint identity
`⟨u, A v⟩ = ⟨Aᴴ u, v⟩`.  `transpose()`, however, never returns an
operator: the source wraps the uncalled method object `self.A.transpose`
and crashes reading its `shape`, modelled as `none`. -/
theorem matrix_wrapper_contract :
    ∀ (m n : ℕ) (W : MatrixWrapper m n) (v : Fin n → ℚ) (u : Fin m → ℚ),
      W.matvec v = W.A.mulVec v
      ∧ W.rmatvec u = Matrix.vecMul u W.A
      ∧ W.rmatvec u = W.Aᵀ.mulVec u
      ∧ u ⬝ᵥ W.matvec v = (W.adjointOp.matvec u) ⬝ᵥ v
      ∧ W.transposeOp = none := by
  intro m n W v u
  refine ⟨rfl, rfl, ?_, ?_, rfl⟩
  · rw [Matrix.mulVec_transpose]
    rfl
  · show u ⬝ᵥ W.A.mulVec v = (W.Aᵀ.mulVec u) ⬝ᵥ v
    rw [Matrix.dotProduct_mulVec, Matrix.mulVec_transpose]

/-- C6: every `ProjectedMatrix.dot` on a reduced vector returns
`Tmᵀ · A · (Tm · v)`, appends the full-space probe `Tm·v` to `Vs` and
its image `A (Tm·v)` to `AVs` as new trailing columns (leaving `A` and
`Tm` unchanged), and over every sequence of applies the histories are
exactly the old columns followed by the new probes in application
order — they strictly grow and are never removed or reordered. -/
theorem projected_dot_history :
    ∀ (dt dp : ℕ) (P : ProjectedMatrix dt dp) (vm : Fin dp → ℚ)
      (vs : List (Fin dp → ℚ)),
      (P.dot vm).1 = P.Tmᵀ.mulVec (P.A (P.Tm.mulVec vm))
      ∧ (P.dot vm).2.Vs = P.Vs ++ [P.Tm.mulVec vm]
      ∧ (P.dot vm).2.AVs = P.AVs ++ [P.A (P.Tm.mulVec vm)]
      ∧ (P.dot vm).2.A = P.A
      ∧ (P.dot vm).2.Tm = P.Tm
      ∧ (P.applySeq vs).Vs = P.Vs ++ vs.map (fun u => P.Tm.mulVec u)
      ∧ (P.applySeq vs).AVs = P.AVs ++ vs.map (fun u => P.A (P.Tm.mulVec u)) := by
  intro dt dp P vm vs
  obtain ⟨h1, h2, _, _⟩ := applySeq_history vs P
  exact ⟨rfl, rfl, rfl, rfl, rfl, h1, h2⟩

/-- C10: `MatrixSum._adjoint` and `MatrixSum._transpose` return the sum
itself — also for sums built by the constructor, which never inspects
its summands' symmetry.  This identification is sound precisely under
the unstated assumption that every summand is self-adjoint: when all
summands are symmetric the sum satisfies the adjoint identity
`⟨w, S v⟩ = ⟨v, S w⟩`, and without that assumption the identity fails
(third conjunct: a sum over one non-symmetric summand violates it). -/
theorem matrix_sum_self_adjoint :
    (∀ (m n : ℕ) (S : MatrixSum m n), S.adjointOp = S ∧ S.transposeOp = S)
    ∧ (∀ (m n : ℕ) (args : List (SumArg m n)),
        (MatrixSum.make args).adjointOp = MatrixSum.make args
        ∧ (MatrixSum.make args).transposeOp = MatrixSum.make args)
    ∧ (∀ (n : ℕ) (S : MatrixSum n n), (∀ M ∈ S.matrices, Mᵀ = M) →
        ∀ v w : Fin n → ℚ, w ⬝ᵥ S.matvec v = v ⬝ᵥ S.matvec w)
    ∧ ¬ (∀ (S : MatrixSum 2 2) (v w : Fin 2 → ℚ),
          w ⬝ᵥ S.matvec v = v ⬝ᵥ S.matvec w) := by
  refine ⟨fun m n S => ⟨rfl, rfl⟩, fun m n args => ⟨rfl, rfl⟩, ?_, ?_⟩
  · intro n S hsym v w
    rw [msum_matvec_sum, msum_matvec_sum, dot_list_sum, dot_list_sum,
      List.map_map, List.map_map]
    refine congrArg List.sum (List.map_congr_left ?_)
    intro M hM
    show w ⬝ᵥ M.mulVec v = v ⬝ᵥ M.mulVec w
    rw [Matrix.dotProduct_mulVec, ← Matrix.mulVec_transpose, hsym M hM,
      dotProduct_comm]
  · intro hall
    have h := hall ⟨[!![0, 1; 0, 0]]⟩ ![0, 1] ![1, 0]
    revert h
    simp [MatrixSum.matvec, Matrix.mulVec, Matrix.dotProduct, Fin.sum_univ_two]

/-- Witness for C10: the conditional adjoint identity applied to a
concrete symmetric one-summand sum. -/
theorem matrix_sum_self_adjoint_witness :
    (![1, 0] : Fin 2 → ℚ) ⬝ᵥ (MatrixSum.mk [!![1, 2; 2, 3]]).matvec ![0, 1]
      = (![0, 1] : Fin 2 → ℚ) ⬝ᵥ (MatrixSum.mk [!![1, 2; 2, 3]]).matvec ![1, 0] :=
  matrix_sum_self_adjoint.2.2.1 2 ⟨[!![1, 2; 2, 3]]⟩ (by decide) ![0, 1] ![1, 0]

/-! ### Claims about `NumericalHessian` -/

/-- C3 counterexample: one `matvec` call of a three-point probe
performs two potential evaluations (the external counter advances from
0 to 2) but increments the operator's own `calls` by one, not two. -/
theorem numhess_threepoint_calls_counterexample :
    (numhessEx.matvec 0 (fun _ => 1)).2.1.calls = 1
    ∧ (numhessEx.matvec 0 (fun _ => 1)).2.2 = 2
    ∧ (1 : ℕ) ≠ 2 :=
  ⟨rfl, rfl, by decide⟩

/-- C3 (amended): every `NumericalHessian._matvec` call increments the
operator's own `calls` counter by exactly one — in two-point *and* in
three-point mode — while performing one potential evaluation in
two-point mode and two in three-point mode; no other field of the
operator is mutated. -/
theorem numhess_matvec_calls_amended :
    ∀ (n : ℕ) (f0 : (Fin n → ℝ) → ℝ × (Fin n → ℝ)) (x0 g0 : Fin n → ℝ)
      (dxL : ℝ) (tp : Bool) (c s : ℕ) (v : Fin n → ℝ),
      ((NumericalHessian.mk (countFunc f0) x0 g0 dxL tp c).matvec s v).2.1.calls
          = c + 1
      ∧ ((NumericalHessian.mk (countFunc f0) x0 g0 dxL tp c).matvec s v).2.2
          = s + (if tp then 2 else 1)
      ∧ ((NumericalHessian.mk (countFunc f0) x0 g0 dxL tp c).matvec s v).2.1.func
          = countFunc f0
      ∧ ((NumericalHessian.mk (countFunc f0) x0 g0 dxL tp c).matvec s v).2.1.x0 = x0
      ∧ ((NumericalHessian.mk (countFunc f0) x0 g0 dxL tp c).matvec s v).2.1.g0 = g0
      ∧ ((NumericalHessian.mk (countFunc f0) x0 g0 dxL tp c).matvec s v).2.1.dxL = dxL
      ∧ ((NumericalHessian.mk (countFunc f0) x0 g0 dxL tp c).matvec s v).2.1.threepoint
          = tp := by
  intro n f0 x0 g0 dxL tp c s v
  cases tp <;> exact ⟨rfl, rfl, rfl, rfl, rfl, rfl, rfl⟩

/-! ### Claims about `MinMode.f_update` -/

/-- C1: if the argument equals the cached position exactly, `f_update`
returns the cached `(f, g)` and changes nothing — in particular the
external world `σ` is untouched, so no potential call is performed.
Consequently a second call with the same `x` returns exactly the result
of the first and performs no further evaluation, and (when the first
call was not itself cached) the two calls together increment `calls`
exactly once. -/
lemma f_update_cached {n : ℕ} {σ : Type} (pot : σ → Vec n → (ℚ × Vec n) × σ)
    (updH : Option (Mat n) → Vec n → Vec n → Mat n)
    (eig : Mat n → Vec n × Mat n) (w : σ) (s : MinModeState n) (x : Vec n)
    (hx : s.xlast = some x) :
    f_update pot updH eig w s x = some ((s.flast, s.glast), s, w) := by
  rw [f_update, if_pos hx]

theorem f_update_cached_idempotent :
    ∀ (n : ℕ) (σ : Type) (pot : σ → Vec n → (ℚ × Vec n) × σ)
      (updH : Option (Mat n) → Vec n → Vec n → Mat n)
      (eig : Mat n → Vec n × Mat n) (w : σ) (s : MinModeState n) (x : Vec n)
      (r : Option ℚ × Option (Vec n)) (s1 : MinModeState n) (w1 : σ),
      f_update pot updH eig w s x = some (r, s1, w1) →
        f_update pot updH eig w1 s1 x = some (r, s1, w1)
        ∧ (s.xlast = some x → s1 = s ∧ w1 = w ∧ r = (s.flast, s.glast))
        ∧ (s.xlast ≠ some x → s1.calls = s.calls + 1) := by
  intro n σ pot updH eig w s x r s1 w1 h
  by_cases hx : s.xlast = some x
  · rw [f_update_cached pot updH eig w s x hx] at h
    simp only [Option.some.injEq, Prod.mk.injEq] at h
    obtain ⟨hr, hs, hw⟩ := h
    subst hr hs hw
    exact ⟨f_update_cached pot updH eig w s x hx, fun _ => ⟨rfl, rfl, rfl⟩,
      fun hne => absurd hx hne⟩
  · rw [f_update, if_neg hx] at h
    split at h
    · simp only [Option.some.injEq, Prod.mk.injEq] at h
      obtain ⟨hr, hs, hw⟩ := h
      subst hr hs hw
      exact ⟨f_update_cached pot updH eig _ _ x rfl, fun heq => absurd heq hx,
        fun _ => rfl⟩
    · exact absurd h (by simp)
    · simp only [Option.some.injEq, Prod.mk.injEq] at h
      obtain ⟨hr, hs, hw⟩ := h
      subst hr hs hw
      exact ⟨f_update_cached pot updH eig _ _ x rfl, fun heq => absurd heq hx,
        fun _ => rfl⟩
    · simp only [Option.some.injEq, Prod.mk.injEq] at h
      obtain ⟨hr, hs, hw⟩ := h
      subst hr hs hw
      exact ⟨f_update_cached pot updH eig _ _ x rfl, fun heq => absurd heq hx,
        fun _ => rfl⟩

/-- Witness for C1: a concrete first evaluation at `![3]` from a fresh
state, followed by the theorem's conclusion that the second call
returns the identical result with an unchanged external world and that
`calls` was incremented exactly once. -/
theorem f_update_cached_idempotent_witness :
    f_update potCount updConst eigTriv 1 sOnce ![3]
        = some ((some 3, some ![3]), sOnce, 1)
    ∧ sOnce.calls = sFresh.calls + 1 := by
  have h := f_update_cached_idempotent 1 ℕ potCount updConst eigTriv 0 sFresh ![3]
    (some 3, some ![3]) sOnce 1 (by decide)
  exact ⟨h.1, h.2.2 (by decide)⟩

/-- The fresh-evaluation path of `f_update` with a fully populated
cache: the stored `df`, `df_pred` and `ratio` fields. -/
lemma f_update_ratio_fields :
    ∀ (n : ℕ) (σ : Type) (pot : σ → Vec n → (ℚ × Vec n) × σ)
      (updH : Option (Mat n) → Vec n → Vec n → Mat n)
      (eig : Mat n → Vec n × Mat n) (w : σ) (s : MinModeState n) (x : Vec n)
      (fl : ℚ) (xl gl : Vec n) (Hm : Mat n),
      s.flast = some fl → s.xlast = some xl → s.glast = some gl →
      s.H = some Hm → s.xlast ≠ some x →
      (f_update pot updH eig w s x).map
          (fun t => (t.2.1.df, t.2.1.df_pred, t.2.1.ratio))
        = some (some ((pot w x).1.1 - fl),
            some ((gl ⬝ᵥ (x - xl)) + ((x - xl) ⬝ᵥ (Hm.mulVec (x - xl))) / 2),
            some (((gl ⬝ᵥ (x - xl)) + ((x - xl) ⬝ᵥ (Hm.mulVec (x - xl))) / 2)
              / ((pot w x).1.1 - fl))) := by
  intro n σ pot updH eig w s x fl xl gl Hm hfl hxl hgl hH hne
  rw [f_update, if_neg hne, hfl, hxl, hgl, hH]
  rfl

/-- C5 (amended): on every evaluation at a new position with cached
`(flast, xlast, glast, H)`, `f_update` stores the actual change
`df = f − flast`, the model prediction
`df_pred = gᵗΔx + ΔxᵗHΔx/2`, and as `ratio` the quotient
`df_pred / df` — the ratio of *predicted* change to *actual* change —
exposing it to the caller without acting on it. -/
theorem ratio_stored_amended :
    ∀ (n : ℕ) (σ : Type) (pot : σ → Vec n → (ℚ × Vec n) × σ)
      (updH : Option (Mat n) → Vec n → Vec n → Mat n)
      (eig : Mat n → Vec n × Mat n) (w : σ) (s : MinModeState n) (x : Vec n)
      (fl : ℚ) (xl gl : Vec n) (Hm : Mat n),
      s.flast = some fl → s.xlast = some xl → s.glast = some gl →
      s.H = some Hm → s.xlast ≠ some x →
      (f_update pot updH eig w s x).map
          (fun t => (t.2.1.df, t.2.1.df_pred, t.2.1.ratio))
        = some (some ((pot w x).1.1 - fl),
            some ((gl ⬝ᵥ (x - xl)) + ((x - xl) ⬝ᵥ (Hm.mulVec (x - xl))) / 2),
            some (((gl ⬝ᵥ (x - xl)) + ((x - xl) ⬝ᵥ (Hm.mulVec (x - xl))) / 2)
              / ((pot w x).1.1 - fl))) :=
  f_update_ratio_fields

/-- Witness for C5 (amended): stepping `sCached` to `![1]` under
`potCount` gives actual change `1`, predicted change
`1·1 + (1·2·1)/2 = 2`, and stored ratio `2/1 = 2`. -/
theorem ratio_stored_amended_witness :
    (f_update potCount updConst eigTriv 0 sCached ![1]).map
        (fun t => (t.2.1.df, t.2.1.df_pred, t.2.1.ratio))
      = some (some 1, some 2, some 2) := by
  have h := ratio_stored_amended 1 ℕ potCount updConst eigTriv 0 sCached ![1]
    0 ![0] ![1] !![2] rfl rfl rfl rfl (by decide)
  rw [h]
  norm_num [potCount, Matrix.dotProduct, Matrix.mulVec, Fin.sum_univ_one]

/-- C5 counterexample: at the same concrete step the actual change is
`1` and the predicted change is `2`, so the ratio of actual to
predicted change is `1/2`; the controller instead stores `2`
(predicted over actual), and `2 ≠ 1/2`. -/
theorem ratio_direction_counterexample :
    (f_update potCount updConst eigTriv 0 sCached ![1]).map
        (fun t => (t.2.1.df, t.2.1.df_pred, t.2.1.ratio))
      = some (some 1, some 2, some 2)
    ∧ (2 : ℚ) ≠ 1 / 2 := by
  have h := f_update_ratio_fields 1 ℕ potCount updConst eigTriv 0 sCached ![1]
    0 ![0] ![1] !![2] rfl rfl rfl rfl (by decide)
  refine ⟨?_, by norm_num⟩
  rw [h]
  norm_num [potCount, Matrix.dotProduct, Matrix.mulVec, Fin.sum_univ_one]

/-- C2: `MinMode.f_dimer` never reaches the eigenvector decomposition:
because line 116 passes the controller itself as the `x0` argument of
`f_minmode`, `len(self)` raises `TypeError` on entry and every call of
`f_dimer` fails, for every controller state and every anchor. -/
theorem f_dimer_always_raises :
    ∀ (n : ℕ) (s : MinModeState n) (x0 : Vec n), f_dimer s x0 = none := by
  intro n s x0
  rfl

/-! ### Helper lemmas for `eval_eg` -/

lemma ravel_length : ∀ l : List V3, (ravel l).length = 3 * l.length := by
  intro l
  induction l with
  | nil => rfl
  | cons a rest ih =>
    show (ravel rest).length + 1 + 1 + 1 = 3 * (rest.length + 1)
    omega

lemma countFixFrom_le (fix : List ℕ) : ∀ (len i : ℕ), countFixFrom fix i len ≤ len := by
  intro len
  induction len with
  | zero => intro i; exact Nat.le_refl 0
  | succ m ih =>
    intro i
    rw [countFixFrom]
    have := ih (i + 1)
    split <;> omega

lemma countFixFrom_single :
    ∀ (len i k : ℕ), countFixFrom [k] i len = if i ≤ k ∧ k < i + len then 1 else 0 := by
  intro len
  induction len with
  | zero =>
    intro i k
    rw [show countFixFrom [k] i 0 = 0 from rfl, if_neg (by omega)]
  | succ m ih =>
    intro i k
    rw [countFixFrom, ih (i + 1) k]
    simp only [List.mem_singleton]
    split <;> split <;> split <;> omega

lemma scatterPos_nil (fix : List ℕ) (i : ℕ) (xin : List V3) :
    scatterPos fix i [] xin = some [] := rfl

lemma scatterPos_cons_mem (fix : List ℕ) (i : ℕ) (r0 : V3) (rest xin : List V3)
    (hmem : i ∈ fix) :
    scatterPos fix i (r0 :: rest) xin
      = (scatterPos fix (i + 1) rest xin).map (r0 :: ·) := by
  simp only [scatterPos, if_pos hmem]

lemma scatterPos_cons_nil (fix : List ℕ) (i : ℕ) (r0 : V3) (rest : List V3)
    (hmem : i ∉ fix) :
    scatterPos fix i (r0 :: rest) [] = none := by
  simp only [scatterPos, if_neg hmem]

lemma scatterPos_cons_cons (fix : List ℕ) (i : ℕ) (r0 rx : V3) (rest restx : List V3)
    (hmem : i ∉ fix) :
    scatterPos fix i (r0 :: rest) (rx :: restx)
      = (scatterPos fix (i + 1) rest restx).map (rx :: ·) := by
  simp only [scatterPos, if_neg hmem]

lemma gatherGrad_cons_mem (fix : List ℕ) (i : ℕ) (f0 : V3) (rest : List V3)
    (hmem : i ∈ fix) :
    gatherGrad fix i (f0 :: rest) = gatherGrad fix (i + 1) rest := by
  simp only [gatherGrad, if_pos hmem]

lemma gatherGrad_cons_not_mem (fix : List ℕ) (i : ℕ) (f0 : V3) (rest : List V3)
    (hmem : i ∉ fix) :
    gatherGrad fix i (f0 :: rest) = f0 :: gatherGrad fix (i + 1) rest := by
  simp only [gatherGrad, if_neg hmem]

lemma scatter_isSome (fix : List ℕ) :
    ∀ (x0 : List V3) (i : ℕ) (xin : List V3),
      x0.length ≤ xin.length + countFixFrom fix i x0.length →
      (scatterPos fix i x0 xin).isSome := by
  intro x0
  induction x0 with
  | nil => intro i xin _; rfl
  | cons r0 rest ih =>
    intro i xin hlen
    rw [List.length_cons, countFixFrom] at hlen
    by_cases hmem : i ∈ fix
    · rw [if_pos hmem] at hlen
      rw [scatterPos_cons_mem fix i r0 rest xin hmem]
      have hrec := ih (i + 1) xin (by omega)
      cases hres : scatterPos fix (i + 1) rest xin with
      | none => rw [hres] at hrec; exact absurd hrec (by simp)
      | some pos => rfl
    · rw [if_neg hmem] at hlen
      cases xin with
      | nil =>
        exfalso
        have := countFixFrom_le fix rest.length (i + 1)
        rw [List.length_nil] at hlen
        omega
      | cons rx restx =>
        rw [scatterPos_cons_cons fix i r0 rx rest restx hmem]
        rw [List.length_cons] at hlen
        have hrec := ih (i + 1) restx (by omega)
        cases hres : scatterPos fix (i + 1) rest restx with
        | none => rw [hres] at hrec; exact absurd hrec (by simp)
        | some pos => rfl

lemma scatter_length (fix : List ℕ) :
    ∀ (x0 : List V3) (i : ℕ) (xin pos : List V3),
      scatterPos fix i x0 xin = some pos → pos.length = x0.length := by
  intro x0
  induction x0 with
  | nil =>
    intro i xin pos h
    rw [scatterPos_nil] at h
    simp only [Option.some.injEq] at h
    subst h
    rfl
  | cons r0 rest ih =>
    intro i xin pos h
    by_cases hmem : i ∈ fix
    · rw [scatterPos_cons_mem fix i r0 rest xin hmem] at h
      cases hres : scatterPos fix (i + 1) rest xin with
      | none => rw [hres] at h; exact absurd h (by simp)
      | some pos2 =>
        rw [hres] at h
        simp only [Option.map_some', Option.some.injEq] at h
        subst h
        rw [List.length_cons, List.length_cons, ih (i + 1) xin pos2 hres]
    · cases xin with
      | nil =>
        rw [scatterPos_cons_nil fix i r0 rest hmem] at h
        exact absurd h (by simp)
      | cons rx restx =>
        rw [scatterPos_cons_cons fix i r0 rx rest restx hmem] at h
        cases hres : scatterPos fix (i + 1) rest restx with
        | none => rw [hres] at h; exact absurd h (by simp)
        | some pos2 =>
          rw [hres] at h
          simp only [Option.map_some', Option.some.injEq] at h
          subst h
          rw [List.length_cons, List.length_cons, ih (i + 1) restx pos2 hres]

lemma scatter_get_fixed (fix : List ℕ) :
    ∀ (x0 : List V3) (i : ℕ) (xin pos : List V3),
      scatterPos fix i x0 xin = some pos →
      ∀ j : ℕ, (i + j) ∈ fix → pos.get? j = x0.get? j := by
  intro x0
  induction x0 with
  | nil =>
    intro i xin pos h j _
    rw [scatterPos_nil] at h
    simp only [Option.some.injEq] at h
    subst h
    rfl
  | cons r0 rest ih =>
    intro i xin pos h j hj
    by_cases hmem : i ∈ fix
    · rw [scatterPos_cons_mem fix i r0 rest xin hmem] at h
      cases hres : scatterPos fix (i + 1) rest xin with
      | none => rw [hres] at h; exact absurd h (by simp)
      | some pos2 =>
        rw [hres] at h
        simp only [Option.map_some', Option.some.injEq] at h
        subst h
        cases j with
        | zero => rfl
        | succ m =>
          have hj2 : (i + 1 + m) ∈ fix := by
            have harith : i + (m + 1) = i + 1 + m := by omega
            rw [← harith]
            exact hj
          exact ih (i + 1) xin pos2 hres m hj2
    · cases xin with
      | nil =>
        rw [scatterPos_cons_nil fix i r0 rest hmem] at h
        exact absurd h (by simp)
      | cons rx restx =>
        rw [scatterPos_cons_cons fix i r0 rx rest restx hmem] at h
        cases hres : scatterPos fix (i + 1) rest restx with
        | none => rw [hres] at h; exact absurd h (by simp)
        | some pos2 =>
          rw [hres] at h
          simp only [Option.map_some', Option.some.injEq] at h
          subst h
          cases j with
          | zero => exact absurd (by simpa using hj) hmem
          | succ m =>
            have hj2 : (i + 1 + m) ∈ fix := by
              have harith : i + (m + 1) = i + 1 + m := by omega
              rw [← harith]
              exact hj
            exact ih (i + 1) restx pos2 hres m hj2

lemma gather_length (fix : List ℕ) :
    ∀ (f : List V3) (i : ℕ),
      (gatherGrad fix i f).length = f.length - countFixFrom fix i f.length := by
  intro f
  induction f with
  | nil => intro i; rfl
  | cons f0 rest ih =>
    intro i
    rw [List.length_cons, countFixFrom]
    have hle := countFixFrom_le fix rest.length (i + 1)
    by_cases hmem : i ∈ fix
    · rw [gatherGrad_cons_mem fix i f0 rest hmem, if_pos hmem, ih (i + 1)]
      omega
    · rw [gatherGrad_cons_not_mem fix i f0 rest hmem, if_neg hmem,
        List.length_cons, ih (i + 1)]
      omega

/-- C8: in the Cartesian specialization with one fixed atom `k` (of
`N`), every evaluation succeeds, scatters the reduced coordinates into
full positions with atom `k` held at its initial position — so the
positions the `Atoms` object holds after any number of steps keep atom
`k` at `x0` — and gathers the force into a reduced flattened gradient
of length `3·(N−1)`. -/
theorem eval_eg_fixed_atoms :
    ∀ (N k : ℕ) (calcEG : List V3 → ℚ × List V3) (x0full xin : List V3),
      k < N → x0full.length = N → xin.length = N - 1 →
      (∀ p, ((calcEG p).2).length = p.length) →
      (evalEg calcEG [k] x0full xin).isSome = true
      ∧ ∀ e g pos, evalEg calcEG [k] x0full xin = some (e, g, pos) →
          g.length = 3 * (N - 1) ∧ pos.get? k = x0full.get? k := by
  intro N k calcEG x0full xin hk hx0 hxin hcalc
  have hfix : ([k] : List ℕ) ≠ [] := by simp
  have hcount : countFixFrom [k] 0 x0full.length = 1 := by
    rw [countFixFrom_single, if_pos (by omega)]
  have hsome : (scatterPos [k] 0 x0full xin).isSome := by
    apply scatter_isSome
    rw [hcount]
    omega
  constructor
  · rw [evalEg, if_neg hfix]
    cases hres : scatterPos [k] 0 x0full xin with
    | none => rw [hres] at hsome; exact absurd hsome (by simp)
    | some pos => rfl
  · intro e g pos heq
    rw [evalEg, if_neg hfix] at heq
    cases hres : scatterPos [k] 0 x0full xin with
    | none => rw [hres] at heq; exact absurd heq (by simp)
    | some pos2 =>
      rw [hres] at heq
      simp only [Option.some.injEq, Prod.mk.injEq] at heq
      obtain ⟨_, hg, hpos⟩ := heq
      subst hg hpos
      have hposlen : pos2.length = N := by
        rw [scatter_length [k] x0full 0 xin pos2 hres, hx0]
      constructor
      · rw [ravel_length, gather_length, List.length_map, hcalc, hposlen,
          countFixFrom_single, if_pos (by omega)]
      · exact scatter_get_fixed [k] x0full 0 xin pos2 hres k (by simp)

/-- Witness for C8: the two-atom system with atom `0` fixed, evaluated
at `xinOne`; the theorem yields the gradient length `3·(2−1)` and the
fixed atom's unchanged position. -/
theorem eval_eg_fixed_atoms_witness :
    gOne.length = 3 * (2 - 1) ∧ posPair.get? 0 = x0Pair.get? 0 :=
  (eval_eg_fixed_atoms 2 0 calcEcho x0Pair xinOne (by omega) rfl rfl
    (fun p => by simp [calcEcho])).2 0 gOne posPair (by decide)

/-! ### Claims about the dihedral residual wrap -/

lemma pymod_eq_fract (a b : ℝ) (hb : b ≠ 0) :
    pymod a b = b * Int.fract (a / b) := by
  unfold pymod Int.fract
  field_simp

lemma wrap_concrete :
    wrapDihedral (-(31 / 10)) 3 = 2 * Real.pi - 61 / 10 := by
  have h2pi : (0 : ℝ) < 2 * Real.pi := by positivity
  unfold wrapDihedral pymod
  have hfloor : ⌊(-(31 / 10) - 3 + Real.pi) / (2 * Real.pi)⌋ = -1 := by
    rw [Int.floor_eq_iff]
    constructor
    · push_cast
      rw [le_div_iff₀ h2pi]
      nlinarith [Real.pi_gt_d6]
    · push_cast
      have hz : (-1 : ℝ) + 1 = 0 := by norm_num
      rw [hz]
      exact div_neg_of_neg_of_pos (by nlinarith [Real.pi_lt_d2]) h2pi
  rw [hfloor]
  push_cast
  ring

lemma specwrap_concrete :
    specDihedralWrap (61 / 10) = 61 / 10 - 2 * Real.pi := by
  have h2pi : (0 : ℝ) < 2 * Real.pi := by positivity
  unfold specDihedralWrap
  have hceil : ⌈((61 : ℝ) / 10 - Real.pi) / (2 * Real.pi)⌉ = 1 := by
    rw [Int.ceil_eq_iff]
    constructor
    · push_cast
      have hz : (1 : ℝ) - 1 = 0 := by norm_num
      rw [hz]
      exact div_pos (by nlinarith [Real.pi_lt_d2]) h2pi
    · push_cast
      rw [div_le_one h2pi]
      nlinarith [Real.pi_gt_d6]
  rw [hceil]
  push_cast
  ring

/-- C4 counterexample: for target `3.0` and measured `−3.1` the wrapped
residual of the source is `2π − 6.1 ≈ +0.183`, which is *not*
`3.0 − (−3.1) = 6.1` reduced into `(−π, π]` (that is `6.1 − 2π ≈
−0.183`); moreover the source's wrap can return exactly `−π` (measured
deviation `π`), which lies outside `(−π, π]`. -/
theorem dihedral_wrap_counterexample :
    wrapDihedral (-(31 / 10)) 3 ≠ specDihedralWrap (3 - -(31 / 10))
    ∧ wrapDihedral Real.pi 0 = -Real.pi
    ∧ wrapDihedral Real.pi 0 ∉ Set.Ioc (-Real.pi) Real.pi := by
  have h2pi : (0 : ℝ) < 2 * Real.pi := by positivity
  have hval : (3 : ℝ) - -(31 / 10) = 61 / 10 := by norm_num
  have h2 : wrapDihedral Real.pi 0 = -Real.pi := by
    unfold wrapDihedral pymod
    have hdiv : (Real.pi - 0 + Real.pi) / (2 * Real.pi) = 1 := by
      rw [show Real.pi - 0 + Real.pi = 2 * Real.pi by ring]
      exact div_self (ne_of_gt h2pi)
    rw [hdiv, Int.floor_one]
    push_cast
    ring
  refine ⟨?_, h2, ?_⟩
  · rw [wrap_concrete, hval, specwrap_concrete]
    intro heq
    nlinarith [Real.pi_gt_d6]
  · rw [h2]
    simp [Set.mem_Ioc]

/-- C4 (amended): the dihedral residual of `res_constr` is the signed
deviation `measured − target` reduced modulo `2π` into the half-open
interval `[−π, π)` (closed at `−π`, open at `π`); in particular for
target `3.0` and measured `−3.1` it equals `(−3.1 − 3.0) + 2π
= 2π − 6.1`. -/
theorem dihedral_wrap_amended :
    ∀ measured target : ℝ,
      wrapDihedral measured target ∈ Set.Ico (-Real.pi) Real.pi
      ∧ (∃ z : ℤ,
          wrapDihedral measured target = (measured - target) - 2 * Real.pi * z)
      ∧ wrapDihedral (-(31 / 10)) 3 = 2 * Real.pi - 61 / 10 := by
  intro m t
  have h2pi : (0 : ℝ) < 2 * Real.pi := by positivity
  refine ⟨?_, ⟨⌊(m - t + Real.pi) / (2 * Real.pi)⌋, by unfold wrapDihedral pymod; ring⟩,
    wrap_concrete⟩
  have hfr := pymod_eq_fract (m - t + Real.pi) (2 * Real.pi) (ne_of_gt h2pi)
  have hf0 : 0 ≤ Int.fract ((m - t + Real.pi) / (2 * Real.pi)) := Int.fract_nonneg _
  have hf1 : Int.fract ((m - t + Real.pi) / (2 * Real.pi)) < 1 := Int.fract_lt_one _
  rw [Set.mem_Ico]
  unfold wrapDihedral
  rw [hfr]
  constructor
  · nlinarith
  · nlinarith
